import Mathlib

/-!
# gitdiff-watcher — verification of the change-detection state engine

Shallow embedding of the core of `gitdiff-watcher` (TypeScript):

* `src/state.ts` — state store (`withFileLock`, `computeHashes`, `loadState`,
  `saveState`) and diff engine (`findChangedFiles`);
* `src/executor.ts` — command runner (`interpolateTemplate`, `executeCommand`,
  `executeAll`).

JavaScript `Record<string, string>` objects are modelled as association lists
with own-property lookup (`lookupKey`); well-formedness (unique keys) is an
explicit hypothesis where a theorem needs it.  Filesystem and subprocess
effects are modelled by explicit oracles (content of the state file, hash
readability, the shell), so every definition is executable.
-/

namespace GitdiffWatcher

/-- Own-property lookup on a JS object modelled as an association list:
`obj[k]`, `undefined` becoming `none`. -/
def lookupKey {β : Type} (k : String) : List (String × β) → Option β
  | [] => none
  | (k', v) :: rest => if k' = k then some v else lookupKey k rest

/-- The keys of a JS object (in insertion order), `Object.keys(obj)`. -/
def objKeys {β : Type} (m : List (String × β)) : List String := m.map Prod.fst

/-- Well-formed JS object: no duplicate keys. -/
def WFObj {β : Type} (m : List (String × β)) : Prop := (objKeys m).Nodup

/-! ## Diff engine — `findChangedFiles` (src/state.ts lines 105–126)

```ts
export function findChangedFiles(previous, current): string[] {
  const changed: string[] = [];
  for (const [path, hash] of Object.entries(current)) {
    if (previous[path] !== hash) { changed.push(path); }
  }
  for (const path of Object.keys(previous)) {
    if (!(path in current)) { changed.push(path); }
  }
  return changed;
}
```
-/

/-- `findChangedFiles(previous, current)` from `src/state.ts`. -/
def findChangedFiles (previous current : List (String × String)) : List String :=
  (current.filter (fun pc => decide (lookupKey pc.1 previous ≠ some pc.2))).map Prod.fst
    ++ (objKeys previous).filter (fun p => decide (lookupKey p current = none))

/-! ### Helper lemmas about `lookupKey` -/

theorem lookupKey_eq_some_of_mem {β : Type} {m : List (String × β)} {k : String} {v : β}
    (hwf : WFObj m) (hmem : (k, v) ∈ m) : lookupKey k m = some v := by
  induction m with
  | nil => cases hmem
  | cons hd tl ih =>
    obtain ⟨k', v'⟩ := hd
    simp only [WFObj, objKeys, List.map_cons, List.nodup_cons] at hwf
    rcases List.mem_cons.mp hmem with heq | htl
    · rw [Prod.mk.injEq] at heq
      rw [heq.1, heq.2]
      simp [lookupKey]
    · have hk : k' ≠ k := by
        intro h
        exact hwf.1 (by rw [h]; exact List.mem_map.mpr ⟨(k, v), htl, rfl⟩)
      simp only [lookupKey, if_neg hk]
      exact ih hwf.2 htl

theorem mem_of_lookupKey_eq_some {β : Type} {m : List (String × β)} {k : String} {v : β}
    (h : lookupKey k m = some v) : (k, v) ∈ m := by
  induction m with
  | nil => simp [lookupKey] at h
  | cons hd tl ih =>
    obtain ⟨k', v'⟩ := hd
    by_cases hk : k' = k
    · subst hk
      simp [lookupKey] at h
      subst h
      exact List.mem_cons_self _ _
    · simp only [lookupKey, if_neg hk] at h
      exact List.mem_cons_of_mem _ (ih h)

theorem lookupKey_eq_some_iff {β : Type} {m : List (String × β)} {k : String} {v : β}
    (hwf : WFObj m) : lookupKey k m = some v ↔ (k, v) ∈ m :=
  ⟨mem_of_lookupKey_eq_some, lookupKey_eq_some_of_mem hwf⟩

theorem lookupKey_eq_none_iff {β : Type} {m : List (String × β)} {k : String} :
    lookupKey k m = none ↔ k ∉ objKeys m := by
  induction m with
  | nil => simp [lookupKey, objKeys]
  | cons hd tl ih =>
    obtain ⟨k', v'⟩ := hd
    by_cases hk : k' = k
    · subst hk
      simp [lookupKey, objKeys]
    · simp only [lookupKey, if_neg hk, objKeys, List.map_cons, List.mem_cons, not_or]
      rw [objKeys] at ih
      rw [ih]
      constructor
      · intro h
        exact ⟨fun he => hk he.symm, h⟩
      · intro h
        exact h.2

theorem lookupKey_isSome_iff {β : Type} {m : List (String × β)} {k : String} :
    lookupKey k m ≠ none ↔ k ∈ objKeys m := by
  have h := not_iff_not.mpr (lookupKey_eq_none_iff (m := m) (k := k))
  rwa [not_not] at h

/-- Lookup on a well-formed object only depends on the object as a set of
entries: permuting the entry list does not change any lookup. -/
theorem lookupKey_perm {β : Type} {m m' : List (String × β)} (hwf : WFObj m)
    (hperm : m.Perm m') (k : String) : lookupKey k m' = lookupKey k m := by
  have hwf' : WFObj m' := by
    have : (objKeys m).Perm (objKeys m') := hperm.map Prod.fst
    exact this.nodup_iff.mp hwf
  cases hm : lookupKey k m with
  | none =>
    rw [lookupKey_eq_none_iff] at hm ⊢
    intro hk
    exact hm ((hperm.map Prod.fst).mem_iff.mpr hk)
  | some v =>
    exact (lookupKey_eq_some_iff hwf').mpr
      (hperm.mem_iff.mp ((lookupKey_eq_some_iff hwf).mp hm))

/-! ### Membership characterization of `findChangedFiles` -/

/-- The "changed" predicate of the spec: in `current` with a hash differing
from (or absent in) `previous`, or in `previous` but absent from `current`. -/
def ChangedPath (previous current : List (String × String)) (p : String) : Prop :=
  (∃ h, lookupKey p current = some h ∧ lookupKey p previous ≠ some h)
    ∨ (lookupKey p previous ≠ none ∧ lookupKey p current = none)

theorem mem_findChangedFiles_iff {previous current : List (String × String)}
    (hc : WFObj current) (p : String) :
    p ∈ findChangedFiles previous current ↔ ChangedPath previous current p := by
  unfold findChangedFiles ChangedPath
  rw [List.mem_append]
  constructor
  · rintro (h1 | h2)
    · left
      obtain ⟨⟨q, hsh⟩, hmem, rfl⟩ := List.mem_map.mp h1
      obtain ⟨hmem', hne⟩ := List.mem_filter.mp hmem
      rw [decide_eq_true_iff] at hne
      exact ⟨hsh, lookupKey_eq_some_of_mem hc hmem', hne⟩
    · right
      obtain ⟨hkeys, hnone⟩ := List.mem_filter.mp h2
      rw [decide_eq_true_iff] at hnone
      exact ⟨lookupKey_isSome_iff.mpr hkeys, hnone⟩
  · rintro (⟨hsh, hcur, hprev⟩ | ⟨hprev, hcur⟩)
    · left
      refine List.mem_map.mpr ⟨(p, hsh), List.mem_filter.mpr ⟨mem_of_lookupKey_eq_some hcur, ?_⟩, rfl⟩
      exact decide_eq_true_iff.mpr hprev
    · right
      refine List.mem_filter.mpr ⟨lookupKey_isSome_iff.mp hprev, ?_⟩
      exact decide_eq_true_iff.mpr hcur

theorem findChangedFiles_nodup {previous current : List (String × String)}
    (hp : WFObj previous) (hc : WFObj current) :
    (findChangedFiles previous current).Nodup := by
  unfold findChangedFiles
  apply List.Nodup.append
  · have hsub : ((current.filter
        (fun pc => decide (lookupKey pc.1 previous ≠ some pc.2))).map Prod.fst).Sublist
        (current.map Prod.fst) := (List.filter_sublist _).map Prod.fst
    exact hsub.nodup hc
  · exact (List.filter_sublist _).nodup hp
  · intro p hp1 hp2
    obtain ⟨⟨q, hsh⟩, hmem, rfl⟩ := List.mem_map.mp hp1
    obtain ⟨hmem', _⟩ := List.mem_filter.mp hmem
    obtain ⟨_, hnone⟩ := List.mem_filter.mp hp2
    rw [decide_eq_true_iff] at hnone
    rw [lookupKey_eq_some_of_mem hc hmem'] at hnone
    exact Option.noConfusion hnone

theorem findChangedFiles_self {m : List (String × String)} (hm : WFObj m) :
    findChangedFiles m m = [] := by
  unfold findChangedFiles
  have h1 : m.filter (fun pc => decide (lookupKey pc.1 m ≠ some pc.2)) = [] := by
    rw [List.filter_eq_nil_iff]
    intro ⟨k, v⟩ hmem
    simp only [decide_eq_true_iff, not_not, Decidable.not_not]
    exact lookupKey_eq_some_of_mem hm hmem
  have h2 : (objKeys m).filter (fun p => decide (lookupKey p m = none)) = [] := by
    rw [List.filter_eq_nil_iff]
    intro k hmem
    simp only [decide_eq_true_iff]
    exact lookupKey_isSome_iff.mpr hmem
  rw [h1, h2]
  rfl

/-- **C2.** `findChangedFiles` contains exactly the changed paths (in `current`
with a differing-or-absent hash in `previous`, or in `previous` and gone from
`current`), has no duplicates, is invariant in membership under permutation of
either input (map iteration order is irrelevant), and is empty on two equal
well-formed maps. -/
theorem findChangedFiles_correct (previous current : List (String × String))
    (hp : WFObj previous) (hc : WFObj current) :
    (∀ p, p ∈ findChangedFiles previous current ↔
        ((∃ h, lookupKey p current = some h ∧ lookupKey p previous ≠ some h)
          ∨ (lookupKey p previous ≠ none ∧ lookupKey p current = none)))
    ∧ (findChangedFiles previous current).Nodup
    ∧ (∀ previous' current', previous.Perm previous' → current.Perm current' →
        ∀ p, p ∈ findChangedFiles previous' current' ↔ p ∈ findChangedFiles previous current)
    ∧ findChangedFiles previous previous = []
    ∧ findChangedFiles ([] : List (String × String)) [] = [] := by
  refine ⟨fun p => mem_findChangedFiles_iff hc p, findChangedFiles_nodup hp hc, ?_, ?_, ?_⟩
  · intro previous' current' hpp hcp p
    have hc' : WFObj current' := ((hcp.map Prod.fst).nodup_iff).mp hc
    rw [mem_findChangedFiles_iff hc' p, mem_findChangedFiles_iff hc p]
    unfold ChangedPath
    rw [lookupKey_perm hp hpp p, lookupKey_perm hc hcp p]
  · exact findChangedFiles_self hp
  · exact findChangedFiles_self (by simp [WFObj, objKeys])

/-- Witness for C2 at a concrete input: previous `{a: h1, b: h2}`, current
`{a: h1, c: h3}` — changed is exactly `[c, b]`. -/
theorem findChangedFiles_correct_witness :
    WFObj [("a", "h1"), ("b", "h2")] ∧ WFObj [("a", "h1"), ("c", "h3")] ∧
    (("c" ∈ findChangedFiles [("a", "h1"), ("b", "h2")] [("a", "h1"), ("c", "h3")] ↔
        ((∃ h, lookupKey "c" [("a", "h1"), ("c", "h3")] = some h ∧
            lookupKey "c" [("a", "h1"), ("b", "h2")] ≠ some h)
          ∨ (lookupKey "c" [("a", "h1"), ("b", "h2")] ≠ none ∧
              lookupKey "c" [("a", "h1"), ("c", "h3")] = none)))
      ∧ (findChangedFiles [("a", "h1"), ("b", "h2")] [("a", "h1"), ("c", "h3")]).Nodup) := by
  have hp : WFObj [("a", "h1"), ("b", "h2")] := by unfold WFObj objKeys; decide
  have hc : WFObj [("a", "h1"), ("c", "h3")] := by unfold WFObj objKeys; decide
  obtain ⟨hmem, hnodup, -, -, -⟩ :=
    findChangedFiles_correct [("a", "h1"), ("b", "h2")] [("a", "h1"), ("c", "h3")] hp hc
  exact ⟨hp, hc, hmem "c", hnodup⟩

/-! ## State store data model (src/types.ts)

```ts
export interface PatternState { headSha: string; fileHashes: Record<string, string>; }
export interface StateFile { [globPattern: string]: PatternState; }
```
-/

/-- `PatternState` from `src/types.ts`. -/
structure PatternState where
  headSha : String
  fileHashes : List (String × String)
deriving DecidableEq, Repr

/-- `StateFile` from `src/types.ts`: glob pattern → `PatternState`. -/
def StateFile : Type := List (String × PatternState)

/-- JS property assignment `obj[k] = v`: replaces the value in place when the
key exists (keeping its position), appends the entry otherwise. -/
def setKey {β : Type} (m : List (String × β)) (k : String) (v : β) : List (String × β) :=
  if m.any (fun p => decide (p.1 = k)) then
    m.map (fun p => if p.1 = k then (k, v) else p)
  else m ++ [(k, v)]

/-- The read-modify-write body of `saveState` (src/state.ts lines 92–100), run
under the file lock: parse the prior on-disk content (`none` = missing,
unreadable or malformed — start from `{}`), then `stateFile[pattern] = state`. -/
def saveStateMerge (prior : Option StateFile) (pattern : String)
    (state : PatternState) : StateFile :=
  setKey (prior.getD []) pattern state

/-! ### `setKey` lookup lemmas -/

theorem lookupKey_cons {β : Type} (k k' : String) (v' : β) (tl : List (String × β)) :
    lookupKey k ((k', v') :: tl) = if k' = k then some v' else lookupKey k tl := rfl

theorem lookupKey_map_set {β : Type} (m : List (String × β)) (k : String) (v : β)
    (hmem : k ∈ objKeys m) :
    lookupKey k (m.map (fun p => if p.1 = k then (k, v) else p)) = some v := by
  induction m with
  | nil => cases hmem
  | cons hd tl ih =>
    obtain ⟨k', v'⟩ := hd
    rw [objKeys, List.map_cons] at hmem
    rw [List.map_cons]
    by_cases hk : k' = k
    · have hhead : (if (k', v').1 = k then (k, v) else (k', v')) = (k, v) := by
        simp [hk]
      rw [hhead, lookupKey_cons, if_pos rfl]
    · have hhead : (if (k', v').1 = k then (k, v) else (k', v')) = (k', v') := by
        simp [hk]
      rw [hhead, lookupKey_cons, if_neg hk]
      apply ih
      rcases List.mem_cons.mp hmem with heq | htl
      · exact (hk heq.symm).elim
      · exact htl

theorem lookupKey_append_of_some {β : Type} {m : List (String × β)} {k : String} {v : β}
    (b : List (String × β)) (hsome : lookupKey k m = some v) :
    lookupKey k (m ++ b) = some v := by
  induction m with
  | nil => simp [lookupKey] at hsome
  | cons hd tl ih =>
    obtain ⟨k', v'⟩ := hd
    rw [List.cons_append, lookupKey_cons]
    rw [lookupKey_cons] at hsome
    by_cases hk : k' = k
    · rwa [if_pos hk] at hsome ⊢
    · rw [if_neg hk] at hsome ⊢
      exact ih hsome

theorem lookupKey_append_of_none {β : Type} {m : List (String × β)} {k : String}
    (b : List (String × β)) (hnone : lookupKey k m = none) :
    lookupKey k (m ++ b) = lookupKey k b := by
  induction m with
  | nil => rfl
  | cons hd tl ih =>
    obtain ⟨k', v'⟩ := hd
    rw [List.cons_append, lookupKey_cons]
    rw [lookupKey_cons] at hnone
    by_cases hk : k' = k
    · rw [if_pos hk] at hnone
      exact Option.noConfusion hnone
    · rw [if_neg hk] at hnone ⊢
      exact ih hnone

theorem lookupKey_setKey_self {β : Type} (m : List (String × β)) (k : String) (v : β) :
    lookupKey k (setKey m k v) = some v := by
  unfold setKey
  by_cases hany : m.any (fun p => decide (p.1 = k)) = true
  · rw [if_pos hany]
    apply lookupKey_map_set
    obtain ⟨⟨a, b⟩, hmem, hab⟩ := List.any_eq_true.mp hany
    rw [decide_eq_true_iff] at hab
    exact List.mem_map.mpr ⟨(a, b), hmem, hab⟩
  · rw [if_neg hany]
    have hnone : lookupKey k m = none := by
      rw [lookupKey_eq_none_iff]
      intro hkeys
      apply hany
      obtain ⟨⟨a, b⟩, hmem, hab⟩ := List.mem_map.mp hkeys
      exact List.any_eq_true.mpr ⟨(a, b), hmem, decide_eq_true_iff.mpr hab⟩
    rw [lookupKey_append_of_none _ hnone, lookupKey_cons, if_pos rfl]

theorem lookupKey_map_set_ne {β : Type} (m : List (String × β)) (k q : String) (v : β)
    (hq : q ≠ k) :
    lookupKey q (m.map (fun p => if p.1 = k then (k, v) else p)) = lookupKey q m := by
  induction m with
  | nil => rfl
  | cons hd tl ih =>
    obtain ⟨k', v'⟩ := hd
    rw [List.map_cons]
    by_cases hk : k' = k
    · have hhead : (if (k', v').1 = k then (k, v) else (k', v')) = (k, v) := by
        simp [hk]
      rw [hhead, lookupKey_cons, lookupKey_cons,
        if_neg (fun h => hq h.symm), if_neg (fun h : k' = q => hq (hk ▸ h).symm)]
      exact ih
    · have hhead : (if (k', v').1 = k then (k, v) else (k', v')) = (k', v') := by
        simp [hk]
      rw [hhead, lookupKey_cons, lookupKey_cons]
      by_cases hk'q : k' = q
      · rw [if_pos hk'q, if_pos hk'q]
      · rw [if_neg hk'q, if_neg hk'q]
        exact ih

theorem lookupKey_setKey_ne {β : Type} (m : List (String × β)) (k q : String) (v : β)
    (hq : q ≠ k) : lookupKey q (setKey m k v) = lookupKey q m := by
  unfold setKey
  by_cases hany : m.any (fun p => decide (p.1 = k)) = true
  · rw [if_pos hany]
    exact lookupKey_map_set_ne m k q v hq
  · rw [if_neg hany]
    cases hm : lookupKey q m with
    | some w => exact lookupKey_append_of_some _ hm
    | none =>
      rw [lookupKey_append_of_none _ hm, lookupKey_cons, if_neg (fun h => hq h.symm)]
      rfl

theorem setKey_keys_preserved {β : Type} (m : List (String × β)) (k : String) (v : β)
    (hwf : WFObj m) : WFObj (setKey m k v) := by
  unfold setKey
  by_cases hany : m.any (fun p => decide (p.1 = k)) = true
  · rw [if_pos hany]
    have hkeys : objKeys (m.map (fun p => if p.1 = k then (k, v) else p)) = objKeys m := by
      unfold objKeys
      rw [List.map_map]
      apply List.map_congr_left
      intro ⟨a, b⟩ _
      by_cases hab : a = k
      · simp [hab]
      · simp [hab]
    unfold WFObj
    rw [hkeys]
    exact hwf
  · rw [if_neg hany]
    unfold WFObj objKeys at hwf ⊢
    rw [List.map_append]
    apply List.Nodup.append hwf (by simp)
    intro x hx hx'
    simp only [List.map_cons, List.map_nil, List.mem_singleton] at hx'
    subst hx'
    apply hany
    obtain ⟨⟨a, b⟩, hmem, hab⟩ := List.mem_map.mp hx
    exact List.any_eq_true.mpr ⟨(a, b), hmem, decide_eq_true_iff.mpr hab⟩

/-- **C1.** `saveState`'s read-modify-write on a well-formed prior mapping:
the written mapping sends the saved pattern `P` to exactly `s`, keeps every
other pattern `Q ≠ P` bound to its prior snapshot, and stays well-formed. -/
theorem saveState_preserves_other_patterns (prior : StateFile) (P : String)
    (s : PatternState) (hwf : WFObj prior) :
    lookupKey P (saveStateMerge (some prior) P s) = some s
    ∧ (∀ Q, Q ≠ P → lookupKey Q (saveStateMerge (some prior) P s) = lookupKey Q prior)
    ∧ WFObj (saveStateMerge (some prior) P s) := by
  refine ⟨?_, ?_, ?_⟩
  · exact lookupKey_setKey_self prior P s
  · intro Q hQ
    exact lookupKey_setKey_ne prior P Q s hQ
  · exact setKey_keys_preserved prior P s hwf

/-- Witness for C1: prior `{a ↦ sA, b ↦ sB}`, save pattern `b` with a new
snapshot — `b` is updated, `a` keeps its snapshot. -/
theorem saveState_preserves_other_patterns_witness :
    lookupKey "b" (saveStateMerge
        (some [("a", ⟨"s1", []⟩), ("b", ⟨"s2", []⟩)]) "b" ⟨"s3", [("f.ts", "h")]⟩)
      = some ⟨"s3", [("f.ts", "h")]⟩
    ∧ lookupKey "a" (saveStateMerge
        (some [("a", ⟨"s1", []⟩), ("b", ⟨"s2", []⟩)]) "b" ⟨"s3", [("f.ts", "h")]⟩)
      = lookupKey "a" [("a", ⟨"s1", []⟩), ("b", ⟨"s2", []⟩)] := by
  have hwf : WFObj [("a", (⟨"s1", []⟩ : PatternState)), ("b", ⟨"s2", []⟩)] := by
    unfold WFObj objKeys
    decide
  obtain ⟨h1, h2, -⟩ := saveState_preserves_other_patterns
    [("a", ⟨"s1", []⟩), ("b", ⟨"s2", []⟩)] "b" ⟨"s3", [("f.ts", "h")]⟩ hwf
  exact ⟨h1, h2 "a" (by decide)⟩

/-! ## File lock — `withFileLock` (src/state.ts lines 9–39)

```ts
async function withFileLock<T>(lockPath, fn) {
  const maxRetries = 20;
  const baseDelayMs = 10;
  for (let attempt = 0; attempt < maxRetries; attempt++) {
    let fd = undefined;
    try {
      fd = await open(lockPath, 'wx'); // atomic: throws EEXIST if lock exists
      return await fn();
    } catch (err) {
      if (fd === undefined && err.code === 'EEXIST') {
        if (attempt < maxRetries - 1) { await sleep(...); continue; }
        throw new Error(`Could not acquire state file lock ...`);
      }
      throw err;
    } finally {
      if (fd !== undefined) { await fd.close(); await unlink(lockPath); }
    }
  }
  throw new Error('Unexpected end of withFileLock loop');
}
```

The environment is modelled by `held : Nat → Bool`: whether another process
holds the marker when this call's attempt `i` issues `open(lockPath, 'wx')`
(`true` ⇒ the open throws `EEXIST`).  The randomized sleep between attempts
is real time and not modelled; the bound on the number of attempts is.
`fn` is the critical section's outcome (`Except.error` = it threw). -/

/-- `maxRetries` from `withFileLock`. -/
def lockMaxRetries : Nat := 20

/-- Filesystem events on the lock marker performed by one `saveState` call. -/
inductive FsEvent
  | createLock
  | removeLock
deriving DecidableEq, Repr

/-- Observable outcome of one `withFileLock` call: its returned-or-thrown
value, the lock-marker events it performed (in order), and whether the
critical section ran. -/
structure LockOutcome (α : Type) where
  result : Except String α
  events : List FsEvent
  fnRan : Bool
deriving Repr

/-- The lock-timeout error message thrown when the retry budget is exhausted. -/
def lockTimeoutMsg (lockPath : String) : String :=
  "Could not acquire state file lock at " ++ lockPath ++ " after 20 attempts"

/-- One pass of the `withFileLock` retry loop, starting at `attempt` with
`fuel` loop iterations left (the source runs the body exactly
`lockMaxRetries` times, so `fuel` starts at `lockMaxRetries`). -/
def withFileLockGo {α : Type} (lockPath : String) (held : Nat → Bool)
    (fn : Except String α) : Nat → Nat → LockOutcome α
  | 0, _ => ⟨Except.error "Unexpected end of withFileLock loop", [], false⟩
  | fuel + 1, attempt =>
    if held attempt then
      if attempt < lockMaxRetries - 1 then
        withFileLockGo lockPath held fn fuel (attempt + 1)
      else
        ⟨Except.error (lockTimeoutMsg lockPath), [], false⟩
    else
      ⟨fn, [FsEvent.createLock, FsEvent.removeLock], true⟩

/-- `withFileLock(lockPath, fn)` under environment `held`. -/
def withFileLock {α : Type} (lockPath : String) (held : Nat → Bool)
    (fn : Except String α) : LockOutcome α :=
  withFileLockGo lockPath held fn lockMaxRetries 0

/-- `saveState(statePath, pattern, state)` (src/state.ts lines 79–102):
`mkdir -p` on the parent directory, then under the lock at
`statePath + ".lock"`: read and parse the prior content (`prior`; `none` on
any read/parse error — start from `{}`), set the pattern key, and write the
result (`writeOk = false` models a fatal write failure such as disk full). -/
def saveStateRun (statePath : String) (held : Nat → Bool) (prior : Option StateFile)
    (pattern : String) (state : PatternState) (writeOk : Bool) : LockOutcome StateFile :=
  withFileLock (statePath ++ ".lock") held
    (if writeOk then Except.ok (saveStateMerge prior pattern state)
     else Except.error "write-failure")

/-- Whether the call's own lock marker exists after replaying its events. -/
def markerPresent (events : List FsEvent) : Bool :=
  events.foldl (fun _ e => match e with
    | FsEvent.createLock => true
    | FsEvent.removeLock => false) false

theorem withFileLockGo_events {α : Type} (lockPath : String) (held : Nat → Bool)
    (fn : Except String α) (fuel attempt : Nat) :
    (withFileLockGo lockPath held fn fuel attempt).events = []
      ∨ (withFileLockGo lockPath held fn fuel attempt).events
          = [FsEvent.createLock, FsEvent.removeLock] := by
  induction fuel generalizing attempt with
  | zero => left; rfl
  | succ f ih =>
    unfold withFileLockGo
    by_cases hheld : held attempt
    · rw [if_pos hheld]
      by_cases hlt : attempt < lockMaxRetries - 1
      · rw [if_pos hlt]
        exact ih (attempt + 1)
      · rw [if_neg hlt]
        left; rfl
    · rw [if_neg (by simp [hheld])]
      right; rfl

theorem withFileLockGo_timeout {α : Type} (lockPath : String) (held : Nat → Bool)
    (fn : Except String α) (fuel attempt : Nat)
    (hfuel : fuel + attempt = lockMaxRetries) (hpos : 0 < fuel)
    (hheld : ∀ j, attempt ≤ j → j < lockMaxRetries → held j = true) :
    withFileLockGo lockPath held fn fuel attempt
      = ⟨Except.error (lockTimeoutMsg lockPath), [], false⟩ := by
  induction fuel generalizing attempt with
  | zero => omega
  | succ f ih =>
    unfold withFileLockGo
    have hatt : attempt < lockMaxRetries := by omega
    rw [if_pos (hheld attempt (Nat.le_refl _) hatt)]
    by_cases hlt : attempt < lockMaxRetries - 1
    · rw [if_pos hlt]
      exact ih (attempt + 1) (by omega) (by omega)
        (fun j hj hj' => hheld j (by omega) hj')
    · rw [if_neg hlt]

theorem withFileLockGo_acquires {α : Type} (lockPath : String) (held : Nat → Bool)
    (fn : Except String α) (fuel attempt : Nat)
    (hfuel : fuel + attempt = lockMaxRetries)
    (hfree : ∃ j, attempt ≤ j ∧ j < lockMaxRetries ∧ held j = false) :
    withFileLockGo lockPath held fn fuel attempt
      = ⟨fn, [FsEvent.createLock, FsEvent.removeLock], true⟩ := by
  induction fuel generalizing attempt with
  | zero =>
    obtain ⟨j, hj1, hj2, -⟩ := hfree
    omega
  | succ f ih =>
    unfold withFileLockGo
    by_cases hheld : held attempt
    · rw [if_pos hheld]
      obtain ⟨j, hj1, hj2, hj3⟩ := hfree
      have hjne : j ≠ attempt := fun h => by rw [h] at hj3; rw [hheld] at hj3; cases hj3
      have hlt : attempt < lockMaxRetries - 1 := by omega
      rw [if_pos hlt]
      exact ih (attempt + 1) (by omega) ⟨j, by omega, hj2, hj3⟩
    · rw [if_neg (by simp [hheld])]

/-- **C3.** `saveState` contends on the create-exclusive lock marker with a
retry loop bounded by `lockMaxRetries = 20` attempts: when the marker is held
at all 20 attempts the call fails with the lock-acquisition-timeout error and
the read-modify-write never runs; when some attempt within the budget finds
the marker free, the call acquires it, runs the critical section, and (with a
healthy disk) returns the merged state. -/
theorem saveState_lock_retry (statePath : String) (held : Nat → Bool)
    (prior : Option StateFile) (pattern : String) (state : PatternState)
    (writeOk : Bool) :
    lockMaxRetries = 20
    ∧ ((∀ i, i < lockMaxRetries → held i = true) →
        (saveStateRun statePath held prior pattern state writeOk).result
            = Except.error (lockTimeoutMsg (statePath ++ ".lock"))
          ∧ (saveStateRun statePath held prior pattern state writeOk).fnRan = false)
    ∧ ((∃ i, i < lockMaxRetries ∧ held i = false) →
        (saveStateRun statePath held prior pattern state true).result
            = Except.ok (saveStateMerge prior pattern state)
          ∧ (saveStateRun statePath held prior pattern state true).fnRan = true) := by
  refine ⟨rfl, ?_, ?_⟩
  · intro hheld
    have h := withFileLockGo_timeout (statePath ++ ".lock") held
      (if writeOk then Except.ok (saveStateMerge prior pattern state)
       else Except.error "write-failure") lockMaxRetries 0 rfl (by decide)
      (fun j _ hj' => hheld j hj')
    unfold saveStateRun withFileLock
    rw [h]
    exact ⟨rfl, rfl⟩
  · intro hfree
    obtain ⟨i, hi, hif⟩ := hfree
    have hfn : (if (true : Bool) then Except.ok (saveStateMerge prior pattern state)
        else Except.error "write-failure") = Except.ok (saveStateMerge prior pattern state) := rfl
    unfold saveStateRun withFileLock
    rw [hfn, withFileLockGo_acquires (statePath ++ ".lock") held
      (Except.ok (saveStateMerge prior pattern state)) lockMaxRetries 0 rfl
      ⟨i, Nat.zero_le _, hi, hif⟩]
    exact ⟨rfl, rfl⟩

/-- Witness for C3: with the marker always held, a save times out without
running; with the marker freed at attempt 3, it succeeds with the merge. -/
theorem saveState_lock_retry_witness :
    ((saveStateRun "/repo/.claude/s.json" (fun _ => true) none "*.ts" ⟨"sha", []⟩ true).result
        = Except.error (lockTimeoutMsg "/repo/.claude/s.json.lock")
      ∧ (saveStateRun "/repo/.claude/s.json" (fun _ => true) none "*.ts" ⟨"sha", []⟩ true).fnRan
          = false)
    ∧ ((saveStateRun "/repo/.claude/s.json" (fun i => decide (i < 3)) none "*.ts"
          ⟨"sha", []⟩ true).result
        = Except.ok (saveStateMerge none "*.ts" ⟨"sha", []⟩)
      ∧ (saveStateRun "/repo/.claude/s.json" (fun i => decide (i < 3)) none "*.ts"
          ⟨"sha", []⟩ true).fnRan = true) := by
  constructor
  · exact (saveState_lock_retry "/repo/.claude/s.json" (fun _ => true) none "*.ts"
      ⟨"sha", []⟩ true).2.1 (fun i _ => rfl)
  · exact (saveState_lock_retry "/repo/.claude/s.json" (fun i => decide (i < 3)) none "*.ts"
      ⟨"sha", []⟩ true).2.2 ⟨3, by decide, by decide⟩

/-- **C4.** On every exit path of a `saveState` call — merged state written,
write failure inside the critical section, or lock-acquisition timeout — the
call's own lock marker does not survive: replaying its marker events leaves no
marker, and every `createLock` is matched by a `removeLock`. -/
theorem saveState_lock_released (statePath : String) (held : Nat → Bool)
    (prior : Option StateFile) (pattern : String) (state : PatternState)
    (writeOk : Bool) :
    markerPresent (saveStateRun statePath held prior pattern state writeOk).events = false
    ∧ (saveStateRun statePath held prior pattern state writeOk).events.count FsEvent.createLock
        = (saveStateRun statePath held prior pattern state writeOk).events.count
            FsEvent.removeLock := by
  rcases withFileLockGo_events (statePath ++ ".lock") held
      (if writeOk then Except.ok (saveStateMerge prior pattern state)
       else Except.error "write-failure") lockMaxRetries 0 with h | h
  · unfold saveStateRun withFileLock
    rw [h]
    exact ⟨rfl, rfl⟩
  · unfold saveStateRun withFileLock
    rw [h]
    exact ⟨rfl, by decide⟩

/-! ## Soft-failure reads — `loadState` and `computeHashes` (src/state.ts)

```ts
export function loadState(statePath, pattern) {
  try {
    const raw = readFileSync(statePath, 'utf-8');
    const stateFile: StateFile = JSON.parse(raw);
    return stateFile[pattern] ?? null;
  } catch { return null; }
}

export async function computeHashes(gitRoot, relativePaths) {
  const entries = await Promise.all(relativePaths.map(async (rel) => {
    try { return [rel, await computeFileHash(join(gitRoot, rel))]; }
    catch { return null; }
  }));
  return Object.fromEntries(entries.filter((e) => e !== null));
}
```
-/

/-- `loadState(statePath, pattern)`.  The filesystem read is modelled by
`raw` (`none` = the read threw: missing or unreadable file) and `JSON.parse`
by the oracle `parse` (`none` = it threw: malformed content); both throws are
absorbed by the `catch`.  `stateFile[pattern] ?? null` is `lookupKey`. -/
def loadState (raw : Option String) (parse : String → Option StateFile)
    (pattern : String) : Option PatternState :=
  match raw with
  | none => none
  | some s =>
    match parse s with
    | none => none
    | some sf => lookupKey pattern sf

/-- `join(gitRoot, rel)` from `node:path`, for repo-root-relative paths. -/
def joinPath (root rel : String) : String := root ++ "/" ++ rel

/-- `computeHashes(gitRoot, relativePaths)`.  `readHash p` is the filesystem
oracle for `computeFileHash(p)`: `some h` when the read succeeds with digest
`h`, `none` when it throws (file deleted since the diff was enumerated); the
`catch` maps a throw to `null`, filtered out before `Object.fromEntries`. -/
def computeHashes (readHash : String → Option String) (gitRoot : String)
    (relativePaths : List String) : List (String × String) :=
  relativePaths.filterMap
    (fun rel => (readHash (joinPath gitRoot rel)).map (fun h => (rel, h)))

theorem computeHashes_not_mem_of_unreadable (readHash : String → Option String)
    (gitRoot : String) (paths : List String) (rel : String)
    (hnone : readHash (joinPath gitRoot rel) = none) :
    rel ∉ objKeys (computeHashes readHash gitRoot paths) := by
  intro hmem
  obtain ⟨⟨a, h⟩, hent, hfst⟩ := List.mem_map.mp hmem
  obtain ⟨x, hx, hfx⟩ := List.mem_filterMap.mp hent
  cases hrx : readHash (joinPath gitRoot x) with
  | none => rw [hrx] at hfx; cases hfx
  | some hx' =>
    rw [hrx] at hfx
    simp only [Option.map_some', Option.some.injEq, Prod.mk.injEq] at hfx
    obtain ⟨rfl, -⟩ := hfx
    subst hfst
    rw [hrx] at hnone
    cases hnone

theorem computeHashes_lookup_of_readable (readHash : String → Option String)
    (gitRoot : String) (paths : List String) (rel h : String)
    (hmem : rel ∈ paths) (hsome : readHash (joinPath gitRoot rel) = some h) :
    (rel, h) ∈ computeHashes readHash gitRoot paths
    ∧ lookupKey rel (computeHashes readHash gitRoot paths) = some h := by
  constructor
  · exact List.mem_filterMap.mpr ⟨rel, hmem, by rw [hsome]; rfl⟩
  · induction paths with
    | nil => cases hmem
    | cons x xs ih =>
      unfold computeHashes
      rw [List.filterMap_cons]
      by_cases hx : x = rel
      · subst hx
        rw [hsome]
        simp only [Option.map_some']
        rw [lookupKey_cons, if_pos rfl]
      · cases hrx : readHash (joinPath gitRoot x) with
        | none =>
          rcases List.mem_cons.mp hmem with heq | htl
          · exact (hx heq.symm).elim
          · exact ih htl
        | some hx' =>
          simp only [Option.map_some']
          rw [lookupKey_cons, if_neg hx]
          rcases List.mem_cons.mp hmem with heq | htl
          · exact (hx heq.symm).elim
          · exact ih htl

/-- **C5.** Soft conditions never escape: `loadState` yields `none` on a
missing/unreadable file, on malformed JSON, and on an absent pattern key (and
on a readable, parseable file it is exactly the stored binding); and
`computeHashes` silently drops every path whose content cannot be read while
still carrying a digest entry (found by lookup) for every readable path. -/
theorem soft_conditions_absorbed (parse : String → Option StateFile)
    (readHash : String → Option String) (gitRoot : String) (paths : List String) :
    (∀ pattern, loadState none parse pattern = none)
    ∧ (∀ s pattern, parse s = none → loadState (some s) parse pattern = none)
    ∧ (∀ s sf pattern, parse s = some sf →
        loadState (some s) parse pattern = lookupKey pattern sf)
    ∧ (∀ rel, readHash (joinPath gitRoot rel) = none →
        rel ∉ objKeys (computeHashes readHash gitRoot paths))
    ∧ (∀ rel h, rel ∈ paths → readHash (joinPath gitRoot rel) = some h →
        (rel, h) ∈ computeHashes readHash gitRoot paths
          ∧ lookupKey rel (computeHashes readHash gitRoot paths) = some h) := by
  refine ⟨fun _ => rfl, ?_, ?_, ?_, ?_⟩
  · intro s pattern hparse
    show (match parse s with
      | none => none
      | some sf => lookupKey pattern sf) = none
    rw [hparse]
  · intro s sf pattern hparse
    show (match parse s with
      | none => none
      | some sf => lookupKey pattern sf) = lookupKey pattern sf
    rw [hparse]
  · intro rel hnone
    exact computeHashes_not_mem_of_unreadable readHash gitRoot paths rel hnone
  · intro rel h hmem hsome
    exact computeHashes_lookup_of_readable readHash gitRoot paths rel h hmem hsome

/-- Witness for C5 at a concrete filesystem: the parse always fails; path
`a.ts` is readable with digest `h1`, `gone.ts` is not. -/
theorem soft_conditions_absorbed_witness :
    loadState (some "not json") (fun _ => none) "*.ts" = none
    ∧ "gone.ts" ∉ objKeys (computeHashes
        (fun p => if p = "/r/a.ts" then some "h1" else none) "/r" ["a.ts", "gone.ts"])
    ∧ lookupKey "a.ts" (computeHashes
        (fun p => if p = "/r/a.ts" then some "h1" else none) "/r" ["a.ts", "gone.ts"])
      = some "h1" := by
  obtain ⟨-, h2, -, h4, h5⟩ := soft_conditions_absorbed (fun _ => none)
    (fun p => if p = "/r/a.ts" then some "h1" else none) "/r" ["a.ts", "gone.ts"]
  refine ⟨h2 "not json" "*.ts" rfl, h4 "gone.ts" ?_, (h5 "a.ts" "h1" ?_ ?_).2⟩
  · show (if joinPath "/r" "gone.ts" = "/r/a.ts" then some "h1" else none) = none
    rw [if_neg (by decide)]
  · decide
  · show (if joinPath "/r" "a.ts" = "/r/a.ts" then some "h1" else none) = some "h1"
    rw [if_pos (by decide)]

/-! ## Command runner — `interpolateTemplate` (src/executor.ts lines 8–10)

```ts
export function interpolateTemplate(command, vars) {
  return command.replace(/\{\{(\w+)\}\}/g, (match, key) => vars[key] ?? match);
}
```

`String.replace` with a global regex scans left to right; at each position the
pattern `\{\{(\w+)\}\}` matches exactly when two `{` are followed by a
non-empty maximal run of word characters followed by two `}` (since `\w`
excludes braces, the greedy `\w+` admits no backtracking).  On a match the
scan resumes after the match; otherwise it advances one character. -/

/-- JS `\w` without the unicode flag: `[A-Za-z0-9_]`. -/
def isWordChar (c : Char) : Bool := c.isAlpha || c.isDigit || c = '_'

/-- One step of the global-regex scan of `/\{\{(\w+)\}\}/g` at the head of
the remaining input: a placeholder match `{{w}}` (with the remainder after
it), or no match at the head (emit one character and advance), or end. -/
inductive ScanStep
  | phMatch (w rest : List Char)
  | literal (c : Char) (cs : List Char)
  | done
deriving DecidableEq, Repr

def scanStep : List Char → ScanStep
  | [] => ScanStep.done
  | c :: cs =>
    if c = '{' then
      match cs with
      | '{' :: rest =>
        match rest.dropWhile isWordChar with
        | '}' :: '}' :: rest3 =>
          if (rest.takeWhile isWordChar).isEmpty then ScanStep.literal c cs
          else ScanStep.phMatch (rest.takeWhile isWordChar) rest3
        | _ => ScanStep.literal c cs
      | _ => ScanStep.literal c cs
    else ScanStep.literal c cs

/-- The replacement the callback produces for a matched `{{w}}`:
`vars[key] ?? match`. -/
def phReplacement (vars : List (String × String)) (w : List Char) : List Char :=
  match lookupKey (String.mk w) vars with
  | some v => v.data
  | none => '{' :: '{' :: (w ++ ['}', '}'])

/-- The regex-replace loop.  Each step consumes at least one character, so
`fuel := length of the input` never runs out (the `0` case is unreachable
padding). -/
def interpGo (vars : List (String × String)) : Nat → List Char → List Char
  | 0, s => s
  | fuel + 1, s =>
    match scanStep s with
    | ScanStep.done => []
    | ScanStep.literal c cs => c :: interpGo vars fuel cs
    | ScanStep.phMatch w rest => phReplacement vars w ++ interpGo vars fuel rest

/-- `interpolateTemplate(command, vars)`. -/
def interpolateTemplate (command : String) (vars : List (String × String)) : String :=
  String.mk (interpGo vars command.data.length command.data)

/-! ### Specification-side token view

The scan decomposes the command into literal characters and placeholder
tokens; interpolation acts tokenwise. -/

inductive Tok
  | lit (c : Char)
  | ph (w : List Char)
deriving DecidableEq, Repr

/-- The source text a token stands for. -/
def renderTok : Tok → List Char
  | Tok.lit c => [c]
  | Tok.ph w => '{' :: '{' :: (w ++ ['}', '}'])

/-- Tokenwise substitution: a known placeholder becomes its variable's value,
an unknown placeholder stays verbatim, literal text is unchanged. -/
def substTok (vars : List (String × String)) : Tok → List Char
  | Tok.lit c => [c]
  | Tok.ph w => phReplacement vars w

/-- Concatenation of a per-token expansion. -/
def tokCat (f : Tok → List Char) : List Tok → List Char
  | [] => []
  | t :: ts => f t ++ tokCat f ts

/-- Tokenization by the same scan as `interpGo`. -/
def tokenizeGo : Nat → List Char → List Tok
  | 0, s => s.map Tok.lit
  | fuel + 1, s =>
    match scanStep s with
    | ScanStep.done => []
    | ScanStep.literal c cs => Tok.lit c :: tokenizeGo fuel cs
    | ScanStep.phMatch w rest => Tok.ph w :: tokenizeGo fuel rest

def tokenizeTemplate (command : String) : List Tok :=
  tokenizeGo command.data.length command.data

/-! ### Inversion lemmas for `scanStep` -/

theorem scanStep_done_inv {s : List Char} (h : scanStep s = ScanStep.done) : s = [] := by
  cases s with
  | nil => rfl
  | cons a as =>
    exfalso
    simp only [scanStep] at h
    split at h
    · split at h
      · split at h
        · split at h
          · exact ScanStep.noConfusion h
          · exact ScanStep.noConfusion h
        · exact ScanStep.noConfusion h
      · exact ScanStep.noConfusion h
    · exact ScanStep.noConfusion h

theorem scanStep_literal_inv {s : List Char} {c : Char} {cs : List Char}
    (h : scanStep s = ScanStep.literal c cs) : s = c :: cs := by
  cases s with
  | nil => exact ScanStep.noConfusion h
  | cons a as =>
    simp only [scanStep] at h
    split at h
    · split at h
      · split at h
        · split at h
          · injection h with h1 h2
            rw [h1, h2]
          · exact ScanStep.noConfusion h
        · injection h with h1 h2
          rw [h1, h2]
      · injection h with h1 h2
        rw [h1, h2]
    · injection h with h1 h2
      rw [h1, h2]

theorem all_takeWhile (p : Char → Bool) : ∀ (l : List Char), (l.takeWhile p).all p = true := by
  intro l
  induction l with
  | nil => rfl
  | cons a as ih =>
    rw [List.takeWhile_cons]
    by_cases ha : p a = true
    · rw [if_pos ha, List.all_cons, ha, ih]
      rfl
    · rw [if_neg ha]
      rfl

theorem scanStep_phMatch_inv {s : List Char} {w rest : List Char}
    (h : scanStep s = ScanStep.phMatch w rest) :
    s = '{' :: '{' :: (w ++ '}' :: '}' :: rest) ∧ w ≠ [] ∧ w.all isWordChar = true := by
  cases s with
  | nil => exact ScanStep.noConfusion h
  | cons a as =>
    simp only [scanStep] at h
    split at h
    · split at h
      · split at h
        · split at h
          · exact ScanStep.noConfusion h
          · rename_i ha cs2 rest2 x2 rest3 hdw hne
            injection h with h1 h2
            subst ha
            refine ⟨?_, ?_, ?_⟩
            · show '{' :: '{' :: rest2 = '{' :: '{' :: (w ++ '}' :: '}' :: rest)
              rw [← h1, ← h2, ← hdw, List.takeWhile_append_dropWhile]
            · intro hwnil
              apply hne
              rw [h1, hwnil]
              rfl
            · rw [← h1]
              exact all_takeWhile isWordChar rest2
        · exact ScanStep.noConfusion h
      · exact ScanStep.noConfusion h
    · exact ScanStep.noConfusion h

theorem scanStep_literal_length {s : List Char} {c : Char} {cs : List Char}
    (h : scanStep s = ScanStep.literal c cs) : cs.length < s.length := by
  rw [scanStep_literal_inv h]
  simp

theorem scanStep_phMatch_length {s : List Char} {w rest : List Char}
    (h : scanStep s = ScanStep.phMatch w rest) : rest.length < s.length := by
  obtain ⟨hs, -, -⟩ := scanStep_phMatch_inv h
  rw [hs]
  simp only [List.length_cons, List.length_append]
  omega

theorem interpGo_succ (vars : List (String × String)) (f : Nat) (s : List Char) :
    interpGo vars (f + 1) s =
      match scanStep s with
      | ScanStep.done => []
      | ScanStep.literal c cs => c :: interpGo vars f cs
      | ScanStep.phMatch w rest => phReplacement vars w ++ interpGo vars f rest := rfl

theorem tokenizeGo_succ (f : Nat) (s : List Char) :
    tokenizeGo (f + 1) s =
      match scanStep s with
      | ScanStep.done => []
      | ScanStep.literal c cs => Tok.lit c :: tokenizeGo f cs
      | ScanStep.phMatch w rest => Tok.ph w :: tokenizeGo f rest := rfl

theorem tokCat_map_lit (f : Tok → List Char) (hf : ∀ c, f (Tok.lit c) = [c]) :
    ∀ s : List Char, tokCat f (s.map Tok.lit) = s := by
  intro s
  induction s with
  | nil => rfl
  | cons a as ih =>
    rw [List.map_cons]
    show f (Tok.lit a) ++ tokCat f (as.map Tok.lit) = a :: as
    rw [hf, ih]
    rfl

/-- The scan relates interpolation to tokenwise substitution, at every fuel. -/
theorem interpGo_tokenize_rel (vars : List (String × String)) :
    ∀ (fuel : Nat) (s : List Char),
      interpGo vars fuel s = tokCat (substTok vars) (tokenizeGo fuel s)
      ∧ tokCat renderTok (tokenizeGo fuel s) = s
      ∧ (∀ w, Tok.ph w ∈ tokenizeGo fuel s → w ≠ [] ∧ w.all isWordChar = true) := by
  intro fuel
  induction fuel with
  | zero =>
    intro s
    refine ⟨?_, ?_, ?_⟩
    · show s = tokCat (substTok vars) (s.map Tok.lit)
      rw [tokCat_map_lit (substTok vars) (fun _ => rfl)]
    · show tokCat renderTok (s.map Tok.lit) = s
      rw [tokCat_map_lit renderTok (fun _ => rfl)]
    · intro w hw
      exact absurd hw (by
        intro hmem
        obtain ⟨c, -, hc⟩ := List.mem_map.mp hmem
        cases hc)
  | succ f ih =>
    intro s
    cases hstep : scanStep s with
    | done =>
      have hs := scanStep_done_inv hstep
      have hi : interpGo vars (f + 1) s = [] := by
        rw [interpGo_succ, hstep]
      have ht : tokenizeGo (f + 1) s = [] := by
        rw [tokenizeGo_succ, hstep]
      refine ⟨?_, ?_, ?_⟩
      · rw [hi, ht]
        rfl
      · rw [ht, hs]
        rfl
      · intro w hw
        rw [ht] at hw
        cases hw
    | literal c cs =>
      have hs := scanStep_literal_inv hstep
      obtain ⟨h1, h2, h3⟩ := ih cs
      have hi : interpGo vars (f + 1) s = c :: interpGo vars f cs := by
        rw [interpGo_succ, hstep]
      have ht : tokenizeGo (f + 1) s = Tok.lit c :: tokenizeGo f cs := by
        rw [tokenizeGo_succ, hstep]
      refine ⟨?_, ?_, ?_⟩
      · rw [hi, ht, h1]
        rfl
      · rw [ht]
        show renderTok (Tok.lit c) ++ tokCat renderTok (tokenizeGo f cs) = s
        rw [h2, hs]
        rfl
      · intro w hw
        rw [ht] at hw
        rcases List.mem_cons.mp hw with heq | htl
        · cases heq
        · exact h3 w htl
    | phMatch w rest =>
      obtain ⟨hs, hw, hall⟩ := scanStep_phMatch_inv hstep
      obtain ⟨h1, h2, h3⟩ := ih rest
      have hi : interpGo vars (f + 1) s = phReplacement vars w ++ interpGo vars f rest := by
        rw [interpGo_succ, hstep]
      have ht : tokenizeGo (f + 1) s = Tok.ph w :: tokenizeGo f rest := by
        rw [tokenizeGo_succ, hstep]
      refine ⟨?_, ?_, ?_⟩
      · rw [hi, ht, h1]
        rfl
      · rw [ht]
        show renderTok (Tok.ph w) ++ tokCat renderTok (tokenizeGo f rest) = s
        rw [h2, hs]
        show '{' :: '{' :: (w ++ ['}', '}']) ++ rest = '{' :: '{' :: (w ++ '}' :: '}' :: rest)
        simp
      · intro w' hw'
        rw [ht] at hw'
        rcases List.mem_cons.mp hw' with heq | htl
        · injection heq with heq'
          rw [heq']
          exact ⟨hw, hall⟩
        · exact h3 w' htl

/-- **C10.** The scan recognizes only `{{NAME}}` tokens whose name is a
non-empty run of word characters; a command whose decomposition has no
placeholder token (e.g. `{{ X }}` or `{{MY-VAR}}`, whose inner text is not a
word run) is returned unchanged under every variables mapping. -/
theorem interpolateTemplate_wordChar_only (command : String) (vars : List (String × String)) :
    (∀ w, Tok.ph w ∈ tokenizeTemplate command → w ≠ [] ∧ w.all isWordChar = true)
    ∧ ((∀ t, t ∈ tokenizeTemplate command → ∀ w, t ≠ Tok.ph w) →
        interpolateTemplate command vars = command)
    ∧ interpolateTemplate "{{ X }}" [(" X ", "v"), ("X", "v")] = "{{ X }}"
    ∧ interpolateTemplate "{{MY-VAR}}" [("MY-VAR", "v")] = "{{MY-VAR}}" := by
  obtain ⟨h1, h2, h3⟩ := interpGo_tokenize_rel vars command.data.length command.data
  refine ⟨h3, ?_, by decide, by decide⟩
  intro hnoph
  have hsubst : ∀ ts : List Tok, (∀ t, t ∈ ts → ∀ w, t ≠ Tok.ph w) →
      tokCat (substTok vars) ts = tokCat renderTok ts := by
    intro ts
    induction ts with
    | nil => intro _; rfl
    | cons t ts' ih =>
      intro hts
      cases t with
      | lit c =>
        show [c] ++ _ = [c] ++ _
        rw [ih (fun t' ht' => hts t' (List.mem_cons_of_mem _ ht'))]
      | ph w => exact absurd rfl (hts (Tok.ph w) (List.mem_cons_self _ _) w)
  apply String.ext
  calc (interpolateTemplate command vars).data
      = tokCat (substTok vars) (tokenizeTemplate command) := h1
    _ = tokCat renderTok (tokenizeTemplate command) := hsubst _ hnoph
    _ = command.data := h2

/-- Witness for C10: `"abc"` decomposes with no placeholder token, so it is
unchanged even with a binding for `abc`. -/
theorem interpolateTemplate_wordChar_only_witness :
    interpolateTemplate "abc" [("abc", "v")] = "abc" := by
  apply (interpolateTemplate_wordChar_only "abc" [("abc", "v")]).2.1
  have htok : tokenizeTemplate "abc" = [Tok.lit 'a', Tok.lit 'b', Tok.lit 'c'] := by decide
  intro t ht w
  rw [htok] at ht
  fin_cases ht <;> intro hcon <;> cases hcon

/-! ## Command runner — `executeCommand` / `executeAll` (src/executor.ts lines 13–43)

```ts
export async function executeCommand(command, timeoutMs, templateVars = {}) {
  const interpolatedCommand = interpolateTemplate(command, templateVars);
  try {
    const { stdout, stderr } = await execAsync(interpolatedCommand, {
      maxBuffer: 10 * 1024 * 1024,
      timeout: timeoutMs,
    });
    return { command, exitCode: 0, stdout, stderr };
  } catch (error) {
    const err = error as { code?: number; stdout?: string; stderr?: string };
    return { command, exitCode: err.code ?? 1,
             stdout: err.stdout ?? '', stderr: err.stderr ?? '' };
  }
}

export async function executeAll(commands, timeoutMs, templateVars = {}) {
  return Promise.all(commands.map((cmd) => executeCommand(cmd, timeoutMs, templateVars)));
}
```
-/

/-- The options object `executeCommand` passes to `exec`.  `env = none` means
the options carry no `env` key, in which case Node's `exec` gives the child
the parent's `process.env` unchanged. -/
structure ExecOptions where
  maxBuffer : Nat
  timeout : Nat
  env : Option (List (String × String))
deriving DecidableEq, Repr

/-- The (command string, options) pair `executeCommand` hands to `exec`:
the interpolated command; `maxBuffer: 10 * 1024 * 1024`; `timeout:
timeoutMs`; and no `env` entry. -/
def execRequestOf (command : String) (timeoutMs : Nat)
    (templateVars : List (String × String)) : String × ExecOptions :=
  (interpolateTemplate command templateVars,
   { maxBuffer := 10 * 1024 * 1024, timeout := timeoutMs, env := none })

/-- The environment of the subprocess `exec` spawns with options `opts` when
the parent's environment is `parentEnv`. -/
def childEnv (parentEnv : List (String × String)) (opts : ExecOptions) :
    List (String × String) :=
  match opts.env with
  | none => parentEnv
  | some e => e

/-- Counterexample to C6 as stated: with variables mapping `{FILES ↦ a.ts}`,
the spawned subprocess's environment (parent `{PATH ↦ /bin}`) does **not**
contain the entry `FILES ↦ a.ts` — `executeCommand` puts no `env` key in the
`exec` options, so the substitution variables are never exported to the
child's environment (they reach the command only via string interpolation). -/
theorem executeCommand_env_counterexample :
    ("FILES", "a.ts") ∈ [("FILES", "a.ts")]
    ∧ lookupKey "FILES" (childEnv [("PATH", "/bin")]
        (execRequestOf "lint {{FILES}}" 1000 [("FILES", "a.ts")]).2) = none := by
  constructor
  · exact List.mem_singleton.mpr rfl
  · rfl

/-- **C6 (amended).** Every command runs as an independent subprocess whose
environment is exactly the inherited parent environment: the `exec` options
carry no `env` key, and the substitution variables influence the subprocess
only through template interpolation of the command string. -/
theorem executeCommand_env_inherited (parentEnv : List (String × String))
    (command : String) (timeoutMs : Nat) (vars : List (String × String)) :
    childEnv parentEnv (execRequestOf command timeoutMs vars).2 = parentEnv
    ∧ (execRequestOf command timeoutMs vars).2.env = none
    ∧ (execRequestOf command timeoutMs vars).1 = interpolateTemplate command vars :=
  ⟨rfl, rfl, rfl⟩

/-- A JS error `code` value as it flows into `exitCode` at runtime: Node sets
a numeric code for a non-zero exit, but a **string** code for a spawn failure
(`'ENOENT'`) or output overflow (`'ERR_CHILD_PROCESS_STDIO_MAXBUFFER'`); the
TypeScript cast `as { code?: number }` does not coerce it. -/
inductive JsCode
  | num (n : Int)
  | str (s : String)
deriving DecidableEq, Repr

/-- What `await execAsync(...)` does: resolves with captured output, or
rejects with an error object whose `code`, `stdout`, `stderr` fields may each
be absent.  `code`, when present, is numeric (non-zero exit) or a string
(spawn failure, output overflow); only a timeout/signal kill leaves it
nullish. -/
inductive ExecOutcome
  | success (stdout stderr : String)
  | failure (code : Option JsCode) (stdout stderr : Option String)
deriving DecidableEq, Repr

/-- `CommandResult` from `src/types.ts`.  `exitCode` is declared `number`
there, but `err.code ?? 1` can put a string code into it at runtime, so the
field carries a `JsCode`. -/
structure CommandResult where
  command : String
  exitCode : JsCode
  stdout : String
  stderr : String
deriving DecidableEq, Repr

/-- `executeCommand(command, timeoutMs, templateVars)`; `runShell` is the
shell oracle: the outcome of `execAsync` on a given (already interpolated)
command string and timeout. -/
def executeCommand (runShell : String → Nat → ExecOutcome) (command : String)
    (timeoutMs : Nat) (templateVars : List (String × String)) : CommandResult :=
  match runShell (interpolateTemplate command templateVars) timeoutMs with
  | ExecOutcome.success out err => ⟨command, JsCode.num 0, out, err⟩
  | ExecOutcome.failure code out err =>
      ⟨command, code.getD (JsCode.num 1), out.getD "", err.getD ""⟩

/-- `executeAll(commands, timeoutMs, templateVars)`. -/
def executeAll (runShell : String → Nat → ExecOutcome) (commands : List String)
    (timeoutMs : Nat) (templateVars : List (String × String)) : List CommandResult :=
  commands.map (fun cmd => executeCommand runShell cmd timeoutMs templateVars)

theorem executeCommand_command_field (runShell : String → Nat → ExecOutcome)
    (command : String) (timeoutMs : Nat) (vars : List (String × String)) :
    (executeCommand runShell command timeoutMs vars).command = command := by
  unfold executeCommand
  cases runShell (interpolateTemplate command vars) timeoutMs with
  | success out err => rfl
  | failure code out err => rfl

/-- **C8.** `executeAll` returns exactly one result per command,
order-preserving — the `i`-th result is `executeCommand` on the `i`-th
command — and every result's `command` field is the original,
pre-interpolation command text. -/
theorem executeAll_order_preserving (runShell : String → Nat → ExecOutcome)
    (commands : List String) (timeoutMs : Nat) (vars : List (String × String)) :
    (executeAll runShell commands timeoutMs vars).length = commands.length
    ∧ (∀ i : Nat, (executeAll runShell commands timeoutMs vars)[i]?
        = (commands[i]?).map (fun c => executeCommand runShell c timeoutMs vars))
    ∧ (∀ i : Nat, ((executeAll runShell commands timeoutMs vars)[i]?).map
          CommandResult.command = commands[i]?) := by
  refine ⟨List.length_map _ _, ?_, ?_⟩
  · intro i
    exact List.getElem?_map _ _ _
  · intro i
    unfold executeAll
    rw [List.getElem?_map]
    cases commands[i]? with
    | none => rfl
    | some c =>
      simp only [Option.map_some']
      rw [executeCommand_command_field]

/-- Counterexample to C9 as stated: a command that cannot be spawned (shell
unavailable) rejects with the **string** code `'ENOENT'`, which is not
nullish, so `err.code ?? 1` propagates it verbatim — the resulting
`CommandResult` carries the string `'ENOENT'` as its exit status, not the
claimed numeric exit status 1. -/
theorem executeCommand_spawn_failure_counterexample :
    (executeCommand
        (fun _ _ => ExecOutcome.failure (some (JsCode.str "ENOENT")) none none)
        "lint a.ts" 5 []).exitCode = JsCode.str "ENOENT"
    ∧ (executeCommand
        (fun _ _ => ExecOutcome.failure (some (JsCode.str "ENOENT")) none none)
        "lint a.ts" 5 []).exitCode ≠ JsCode.num 1 := by
  exact ⟨rfl, by decide⟩

/-- **C9 (amended).** `executeCommand` never raises: every rejection of the
underlying subprocess is absorbed into an ordinary `CommandResult`.  Success
gives exit code 0 with the captured output; a rejection carrying a code —
numeric for a non-zero exit, a string such as `'ENOENT'` when the command
cannot even be spawned — reports that code verbatim (`err.code ?? 1`), and
only a rejection whose code is nullish (e.g. a timeout kill) reports exit
code 1; absent output fields become empty strings.  And one command's
failure never affects its siblings: `executeAll` on any surrounding command
lists is the concatenation of the independent per-command results. -/
theorem executeCommand_absorbs_failures (runShell : String → Nat → ExecOutcome)
    (command : String) (timeoutMs : Nat) (vars : List (String × String)) :
    (∀ out err, runShell (interpolateTemplate command vars) timeoutMs
          = ExecOutcome.success out err →
        executeCommand runShell command timeoutMs vars
          = ⟨command, JsCode.num 0, out, err⟩)
    ∧ (∀ c out err, runShell (interpolateTemplate command vars) timeoutMs
          = ExecOutcome.failure (some c) out err →
        executeCommand runShell command timeoutMs vars
          = ⟨command, c, out.getD "", err.getD ""⟩)
    ∧ (∀ out err, runShell (interpolateTemplate command vars) timeoutMs
          = ExecOutcome.failure none out err →
        executeCommand runShell command timeoutMs vars
          = ⟨command, JsCode.num 1, out.getD "", err.getD ""⟩)
    ∧ (∀ before after : List String,
        executeAll runShell (before ++ command :: after) timeoutMs vars
          = executeAll runShell before timeoutMs vars
            ++ executeCommand runShell command timeoutMs vars
              :: executeAll runShell after timeoutMs vars) := by
  refine ⟨?_, ?_, ?_, ?_⟩
  · intro out err hrun
    unfold executeCommand
    rw [hrun]
  · intro c out err hrun
    unfold executeCommand
    rw [hrun]
    rfl
  · intro out err hrun
    unfold executeCommand
    rw [hrun]
    rfl
  · intro before after
    unfold executeAll
    rw [List.map_append, List.map_cons]

/-- Witness for C9 (amended) at a concrete shell: `ok` succeeds, `boom`
rejects with numeric code 3, `nosh` rejects with the string code `'ENOENT'`
(spawn failure), `killed` rejects with a nullish code (timeout kill). -/
theorem executeCommand_absorbs_failures_witness :
    (executeCommand (fun c _ => if c = "ok" then ExecOutcome.success "o" "e"
        else if c = "boom" then ExecOutcome.failure (some (JsCode.num 3)) (some "po") none
        else if c = "nosh" then ExecOutcome.failure (some (JsCode.str "ENOENT")) none none
        else ExecOutcome.failure none none none) "ok" 5 []
      = ⟨"ok", JsCode.num 0, "o", "e"⟩)
    ∧ (executeCommand (fun c _ => if c = "ok" then ExecOutcome.success "o" "e"
        else if c = "boom" then ExecOutcome.failure (some (JsCode.num 3)) (some "po") none
        else if c = "nosh" then ExecOutcome.failure (some (JsCode.str "ENOENT")) none none
        else ExecOutcome.failure none none none) "boom" 5 []
      = ⟨"boom", JsCode.num 3, "po", ""⟩)
    ∧ (executeCommand (fun c _ => if c = "ok" then ExecOutcome.success "o" "e"
        else if c = "boom" then ExecOutcome.failure (some (JsCode.num 3)) (some "po") none
        else if c = "nosh" then ExecOutcome.failure (some (JsCode.str "ENOENT")) none none
        else ExecOutcome.failure none none none) "nosh" 5 []
      = ⟨"nosh", JsCode.str "ENOENT", "", ""⟩)
    ∧ (executeCommand (fun c _ => if c = "ok" then ExecOutcome.success "o" "e"
        else if c = "boom" then ExecOutcome.failure (some (JsCode.num 3)) (some "po") none
        else if c = "nosh" then ExecOutcome.failure (some (JsCode.str "ENOENT")) none none
        else ExecOutcome.failure none none none) "killed" 5 []
      = ⟨"killed", JsCode.num 1, "", ""⟩) := by
  refine ⟨?_, ?_, ?_, ?_⟩
  · exact (executeCommand_absorbs_failures (fun c _ => if c = "ok" then
        ExecOutcome.success "o" "e" else if c = "boom" then
        ExecOutcome.failure (some (JsCode.num 3)) (some "po") none
        else if c = "nosh" then ExecOutcome.failure (some (JsCode.str "ENOENT")) none none
        else ExecOutcome.failure none none none) "ok" 5 []).1 "o" "e" (by decide)
  · exact (executeCommand_absorbs_failures (fun c _ => if c = "ok" then
        ExecOutcome.success "o" "e" else if c = "boom" then
        ExecOutcome.failure (some (JsCode.num 3)) (some "po") none
        else if c = "nosh" then ExecOutcome.failure (some (JsCode.str "ENOENT")) none none
        else ExecOutcome.failure none none none) "boom" 5 []).2.1
      (JsCode.num 3) (some "po") none (by decide)
  · exact (executeCommand_absorbs_failures (fun c _ => if c = "ok" then
        ExecOutcome.success "o" "e" else if c = "boom" then
        ExecOutcome.failure (some (JsCode.num 3)) (some "po") none
        else if c = "nosh" then ExecOutcome.failure (some (JsCode.str "ENOENT")) none none
        else ExecOutcome.failure none none none) "nosh" 5 []).2.1
      (JsCode.str "ENOENT") none none (by decide)
  · exact (executeCommand_absorbs_failures (fun c _ => if c = "ok" then
        ExecOutcome.success "o" "e" else if c = "boom" then
        ExecOutcome.failure (some (JsCode.num 3)) (some "po") none
        else if c = "nosh" then ExecOutcome.failure (some (JsCode.str "ENOENT")) none none
        else ExecOutcome.failure none none none) "killed" 5 []).2.2.1 none none (by decide)

end GitdiffWatcher
